import Mathlib

/-!
Verification of the review-assignment and record-matching engine:
a shallow embedding of `generate_student_and_mapping.py` and
`generate_master_key.py`, followed by theorems about the embedded
definitions.

Python strings are modelled as Lean `String` (lists of characters);
the ASCII behaviour of `str.lower`, `str.upper`, `str.strip` and the
regular expressions used by the source is embedded explicitly.
-/

namespace Review

/-- ASCII model of the Python `str.lower` character map
(codes 65..90 are `A`..`Z`). -/
def pyLowerChar (c : Char) : Char :=
  if 65 ≤ c.toNat ∧ c.toNat ≤ 90 then Char.ofNat (c.toNat + 32) else c

/-- ASCII model of the Python `str.upper` character map
(codes 97..122 are `a`..`z`). -/
def pyUpperChar (c : Char) : Char :=
  if 97 ≤ c.toNat ∧ c.toNat ≤ 122 then Char.ofNat (c.toNat - 32) else c

/-- ASCII model of Python `str.lower`. -/
def pyLower (s : String) : String := ⟨s.data.map pyLowerChar⟩

/-- ASCII model of Python `str.upper`. -/
def pyUpper (s : String) : String := ⟨s.data.map pyUpperChar⟩

/-- Characters kept by the regex `[^a-z0-9]` removal in `normalize_value`
(codes 97..122 are `a`..`z`, codes 48..57 are `0`..`9`). -/
def isKeepChar (c : Char) : Bool :=
  (97 ≤ c.toNat ∧ c.toNat ≤ 122) ∨ (48 ≤ c.toNat ∧ c.toNat ≤ 57)

/-- Embedding of `normalize_value` from `generate_student_and_mapping.py`:
`re.sub(r"[^a-z0-9]", "", value.lower())`. -/
def normalize_value (value : String) : String :=
  ⟨(pyLower value).data.filter isKeepChar⟩

/-- A character kept by the normalizer is already lower case, so the
lowering map fixes it. -/
theorem pyLowerChar_of_keep {c : Char} (h : isKeepChar c = true) :
    pyLowerChar c = c := by
  simp only [isKeepChar, decide_eq_true_eq] at h
  unfold pyLowerChar
  rw [if_neg]
  intro ⟨hA, hZ⟩
  rcases h with ⟨ha, _⟩ | ⟨_, h9⟩ <;> omega

theorem normalize_value_chars (s : String) :
    ∀ c ∈ (normalize_value s).data, isKeepChar c = true := by
  intro c hc
  simp only [normalize_value] at hc
  exact List.of_mem_filter hc

theorem map_pyLowerChar_of_keep :
    ∀ (l : List Char), (∀ c ∈ l, isKeepChar c = true) → l.map pyLowerChar = l := by
  intro l h
  induction l with
  | nil => rfl
  | cons c t ih =>
      simp only [List.map_cons]
      rw [pyLowerChar_of_keep (h c (List.mem_cons_self c t)),
        ih (fun d hd => h d (List.mem_cons_of_mem c hd))]

/-- ASCII whitespace, as stripped by Python `str.strip`. -/
def pyIsSpace (c : Char) : Bool :=
  c = ' ' ∨ c = '\t' ∨ c = '\n' ∨ c = '\r' ∨ c.toNat = 11 ∨ c.toNat = 12

/-- ASCII model of Python `str.strip`. -/
def pyStrip (s : String) : String :=
  ⟨((s.data.dropWhile pyIsSpace).reverse.dropWhile pyIsSpace).reverse⟩

/-- Index of the last `.` in a character list, if any. -/
def rfindDotAux : List Char → Nat → Option Nat → Option Nat
  | [], _, acc => acc
  | c :: t, i, acc => rfindDotAux t (i + 1) (if c = '.' then some i else acc)

/-- Embedding of `pathlib.PurePath.stem` for a plain file name:
drop the part from the last `.` on, provided `0 < i < len(name) - 1`. -/
def pyStem (name : String) : String :=
  match rfindDotAux name.data 0 none with
  | some i => if 0 < i ∧ i < name.data.length - 1 then ⟨name.data.take i⟩ else name
  | none => name

/-- Little-endian base-10 digits, fuel-based so that it reduces by `rfl`. -/
def digitsRevAux : Nat → Nat → List Nat
  | 0, _ => []
  | _ + 1, 0 => []
  | fuel + 1, n + 1 => ((n + 1) % 10) :: digitsRevAux fuel ((n + 1) / 10)

/-- Little-endian base-10 digits of `n`. -/
def pyDigitsRev (n : Nat) : List Nat := digitsRevAux n n

/-- The character for one decimal digit. -/
def digitChar10 : Nat → Char
  | 0 => '0' | 1 => '1' | 2 => '2' | 3 => '3' | 4 => '4'
  | 5 => '5' | 6 => '6' | 7 => '7' | 8 => '8' | _ => '9'

/-- Embedding of Python decimal formatting of a natural number. -/
def pyNatRepr (n : Nat) : String :=
  if n = 0 then "0" else ⟨((pyDigitsRev n).map digitChar10).reverse⟩

/-- Embedding of the Python format spec `02d` (zero-pad to width two). -/
def pyPad2 (n : Nat) : String :=
  if n < 10 then "0" ++ pyNatRepr n else pyNatRepr n

/-- Embedding of the Python format spec `03d` (zero-pad to width three). -/
def pyPad3 (n : Nat) : String :=
  if n < 10 then "00" ++ pyNatRepr n
  else if n < 100 then "0" ++ pyNatRepr n
  else pyNatRepr n

/-- Numeric value of a decimal digit character. -/
def digVal (c : Char) : Nat := c.toNat - 48

/-- Decimal parse of a character list (used only to prove injectivity of
the formatting functions). -/
def parseDec (cs : List Char) : Nat :=
  cs.foldl (fun a c => 10 * a + digVal c) 0

theorem digitsRevAux_eq_digits :
    ∀ fuel n, n ≤ fuel → digitsRevAux fuel n = Nat.digits 10 n := by
  intro fuel
  induction fuel with
  | zero =>
      intro n hn
      interval_cases n
      simp [digitsRevAux]
  | succ fuel ih =>
      intro n hn
      match n with
      | 0 => simp [digitsRevAux]
      | m + 1 =>
          have hdiv : (m + 1) / 10 ≤ fuel := by
            have := Nat.div_lt_self (Nat.succ_pos m) (by norm_num : 1 < 10)
            omega
          rw [show digitsRevAux (fuel + 1) (m + 1)
              = ((m + 1) % 10) :: digitsRevAux fuel ((m + 1) / 10) from rfl,
            ih _ hdiv, Nat.digits_def' (by norm_num : 1 < 10) (Nat.succ_pos m)]

theorem pyDigitsRev_eq_digits (n : Nat) : pyDigitsRev n = Nat.digits 10 n :=
  digitsRevAux_eq_digits n n (Nat.le_refl n)

theorem digVal_digitChar10 : ∀ d, d < 10 → digVal (digitChar10 d) = d := by decide

theorem parseDec_foldr (l : List Nat) (h : ∀ d ∈ l, d < 10) :
    List.foldr (fun d a => 10 * a + digVal (digitChar10 d)) 0 l = Nat.ofDigits 10 l := by
  induction l with
  | nil => simp [Nat.ofDigits]
  | cons d t ih =>
      have hd : d < 10 := h d (List.mem_cons_self d t)
      have ht := ih (fun e he => h e (List.mem_cons_of_mem d he))
      simp only [List.foldr_cons, ht, Nat.ofDigits_cons,
        digVal_digitChar10 d hd]
      ring

theorem parseDec_pyNatRepr (n : Nat) : parseDec (pyNatRepr n).data = n := by
  by_cases h0 : n = 0
  · subst h0; decide
  · unfold pyNatRepr
    rw [if_neg h0]
    show parseDec ((pyDigitsRev n).map digitChar10).reverse = n
    unfold parseDec
    rw [List.foldl_reverse, List.foldr_map, pyDigitsRev_eq_digits,
      parseDec_foldr _ (fun d hd => Nat.digits_lt_base (by norm_num) hd)]
    exact Nat.ofDigits_digits 10 n

theorem str_data_append (s t : String) : (s ++ t).data = s.data ++ t.data := by
  cases s; cases t; rfl

theorem parseDec_cons_zero (cs : List Char) : parseDec ('0' :: cs) = parseDec cs := by
  unfold parseDec
  simp [digVal]

theorem parseDec_pyPad2 (n : Nat) : parseDec (pyPad2 n).data = n := by
  unfold pyPad2
  by_cases h : n < 10
  · rw [if_pos h, str_data_append]
    show parseDec ('0' :: (pyNatRepr n).data) = n
    rw [parseDec_cons_zero, parseDec_pyNatRepr]
  · rw [if_neg h, parseDec_pyNatRepr]

/-- The generated student-id candidates `spfx ++ pyPad2 k` are pairwise
distinct, by parsing back the numeric part. -/
theorem candidate_inj (spfx : String) {k m : Nat}
    (h : spfx ++ pyPad2 k = spfx ++ pyPad2 m) : k = m := by
  have hd : spfx.data ++ (pyPad2 k).data = spfx.data ++ (pyPad2 m).data := by
    rw [← str_data_append, ← str_data_append, h]
  have hpad : (pyPad2 k).data = (pyPad2 m).data := List.append_cancel_left hd
  have := congrArg parseDec hpad
  rwa [parseDec_pyPad2, parseDec_pyPad2] at this

/-- Does the first list occur at the start of the second one? -/
def listStarts : List Char → List Char → Bool
  | [], _ => true
  | _ :: _, [] => false
  | a :: ps, b :: ss => a = b && listStarts ps ss

/-- Embedding of the Python substring test `pat in s`. -/
def isSubstr (pat : List Char) : List Char → Bool
  | [] => listStarts pat []
  | c :: t => listStarts pat (c :: t) || isSubstr pat t

/-- One row of the metadata spreadsheet
(`MetadataRecord` in `generate_student_and_mapping.py`). -/
structure MetadataRecord where
  proposal_id : String
  author_name : String
  proposal_title : String
deriving DecidableEq

/-- The resolved identity of one proposal
(`ProposalRecord` in `generate_student_and_mapping.py`). -/
structure ProposalRecord where
  student_id : String
  proposal_id : String
  filename : String
  author_name : String
  proposal_title : String
deriving DecidableEq

/-- One proposal document: its file name together with the result of the
external first-pages text-title extraction capability
(`extract_title_from_pdf`), which is an outside collaborator. -/
structure PDFDoc where
  name : String
  extractedTitle : Option String
deriving DecidableEq

/-- Lookup in an insertion-ordered association list
(the model of a Python dict). -/
def lookupA {α : Type} (m : List (String × α)) (k : String) : Option α :=
  match m with
  | [] => none
  | (k', v) :: t => if k' = k then some v else lookupA t k

/-- Embedding of Python `dict.setdefault`: insert only if the key is absent,
keeping insertion order. -/
def insertIfAbsent (m : List (String × MetadataRecord)) (k : String)
    (v : MetadataRecord) : List (String × MetadataRecord) :=
  match lookupA m k with
  | some _ => m
  | none => m ++ [(k, v)]

/-- Embedding of `load_metadata`: the input is the list of already
column-extracted rows `(proposal_id, author_name, proposal_title)`. -/
def load_metadata (rows : List (String × String × String)) :
    List (String × MetadataRecord) :=
  rows.foldl
    (fun m row =>
      let proposal_id := pyStrip row.1
      let author := pyStrip row.2.1
      let title := pyStrip row.2.2
      if proposal_id = "" ∧ title = "" then m
      else
        let record : MetadataRecord := ⟨proposal_id, author, title⟩
        let m := if title ≠ "" then insertIfAbsent m (normalize_value title) record else m
        if proposal_id ≠ "" then insertIfAbsent m ("id:" ++ pyLower proposal_id) record else m)
    []

/-- ASCII decimal digit test (the regex class `\d`). -/
def pyIsDigit (c : Char) : Bool := 48 ≤ c.toNat ∧ c.toNat ≤ 57

/-- ASCII model of the regex word-character class `\w` = `[a-zA-Z0-9_]`. -/
def pyIsWordChar (c : Char) : Bool :=
  (97 ≤ c.toNat ∧ c.toNat ≤ 122) ∨ (65 ≤ c.toNat ∧ c.toNat ≤ 90) ∨
    (48 ≤ c.toNat ∧ c.toNat ≤ 57) ∨ c = '_'

/-- Maximal runs of word characters: helper carrying the current run. -/
def splitRunsAux (cur : List Char) : List Char → List (List Char)
  | [] => if cur = [] then [] else [cur]
  | c :: t =>
    if pyIsWordChar c then splitRunsAux (cur ++ [c]) t
    else if cur = [] then splitRunsAux [] t
    else cur :: splitRunsAux [] t

/-- Maximal runs of word characters in a character list. -/
def splitRuns (cs : List Char) : List (List Char) := splitRunsAux [] cs

/-- Embedding of `re.findall(r"\b[a-z0-9]+\b", text)` on lowered text:
the maximal word-character runs consisting purely of `[a-z0-9]`
(a run touching an underscore has no word boundary and is dropped). -/
def tokenize (cs : List Char) : List String :=
  (splitRuns cs).filterMap fun run => if run.all isKeepChar then some ⟨run⟩ else none

/-- The fixed stop-word set of `match_metadata`. -/
def stop_words : List String :=
  ["the", "a", "an", "and", "or", "but", "in", "on", "at", "to", "for", "of", "with", "by"]

/-- The Python word set `set(re.findall(...)) - stop_words`, as a
duplicate-free list. -/
def wordTokenSet (t : String) : List String :=
  ((tokenize (pyLower t).data).dedup).filter (fun w => ¬ w ∈ stop_words)

/-- The word-overlap acceptance test of `match_metadata`:
`len(common) / min(len(pdf_words), len(meta_words)) >= 0.5`, stated
exactly as `2 * len(common) >= min(...)`. -/
def wordOverlapGe (pdfTitle metaTitle : String) : Bool :=
  let pdf_words := wordTokenSet pdfTitle
  let meta_words := wordTokenSet metaTitle
  if pdf_words ≠ [] ∧ meta_words ≠ [] then
    let common := pdf_words.filter (fun w => w ∈ meta_words)
    2 * common.length ≥ min pdf_words.length meta_words.length
  else false

/-- Is the head of the list a decimal digit? -/
def headIsDigit : List Char → Bool
  | d :: _ => pyIsDigit d
  | [] => false

/-- Embedding of `re.search(r"(P\d+)", stem, re.IGNORECASE)`: the group
text of the leftmost occurrence of `P`/`p` followed by digits. -/
def searchPDigits : List Char → Option (List Char)
  | [] => none
  | c :: rest =>
    if (c = 'P' ∨ c = 'p') ∧ headIsDigit rest then
      some (c :: rest.takeWhile pyIsDigit)
    else searchPDigits rest

/-- Embedding of the anchored `re.match(r"(C\d+)", s)` for a letter `c0`:
the group exists only when the string begins with `c0` and at least one
digit, and it is greedy. -/
def matchAnchored (c0 : Char) : List Char → Option (List Char)
  | c :: rest =>
    if c = c0 ∧ headIsDigit rest then some (c0 :: rest.takeWhile pyIsDigit)
    else none
  | [] => none

/-- Embedding of `extract_student_id`. -/
def extract_student_id (filename : String) (fallback : String) : String :=
  let stem := pyStem filename
  match matchAnchored 'S' (pyUpper stem).data with
  | some g => ⟨g⟩
  | none => fallback

/-- Embedding of `extract_proposal_id`. -/
def extract_proposal_id (stem : String) (fallback : String) : String :=
  match matchAnchored 'P' (pyUpper stem).data with
  | some g => ⟨g⟩
  | none => fallback

/-- The strategy-3/4 loop of `match_metadata`: for each stored record in
insertion order, first the substring test, then the word-overlap test. -/
def matchLoop (npt : String) (pdfTitle : String) :
    List (String × MetadataRecord) → Option MetadataRecord
  | [] => none
  | (key, record) :: rest =>
    if listStarts "id:".data key.data then matchLoop npt pdfTitle rest
    else if isSubstr npt.data key.data || isSubstr key.data npt.data then some record
    else if wordOverlapGe pdfTitle record.proposal_title then some record
    else matchLoop npt pdfTitle rest

/-- Embedding of `match_metadata`.  The content-extraction collaborator is
already reflected in `pdf.extractedTitle`. -/
def match_metadata (pdf : PDFDoc) (metadata : List (String × MetadataRecord)) :
    Option MetadataRecord :=
  if metadata = [] then none
  else
    let stem := pyStem pdf.name
    let normalized_title := normalize_value stem
    match lookupA metadata normalized_title with
    | some r => some r
    | none =>
      match (searchPDigits stem.data).bind
          (fun g => lookupA metadata ("id:" ++ pyLower ⟨g⟩)) with
      | some r => some r
      | none =>
        match pdf.extractedTitle with
        | none => none
        | some t =>
          if t = "" then none
          else
            let npt := normalize_value t
            match lookupA metadata npt with
            | some r => some r
            | none => matchLoop npt t metadata

/-- The `while student_id in seen_students` loop of `build_records`,
with explicit fuel (the call site passes enough fuel for the loop to
always find a fresh identifier). -/
def resolveUnique (spfx : String) (seen : List String) :
    String → Nat → Nat → String × Nat
  | sid, index, 0 => (sid, index)
  | sid, index, fuel + 1 =>
    if sid ∈ seen then resolveUnique spfx seen (spfx ++ pyPad2 (index + 1)) (index + 1) fuel
    else (sid, index)

/-- The document loop of `build_records`, carrying the set of assigned
student ids and the running index. -/
def buildRecordsAux (metadata : List (String × MetadataRecord))
    (spfx ppfx : String) : List PDFDoc → List String → Nat → List ProposalRecord
  | [], _, _ => []
  | pdf :: rest, seen, index =>
    let stem := pyStem pdf.name
    let student_candidate := spfx ++ pyPad2 index
    let sid0 := extract_student_id pdf.name student_candidate
    let res := resolveUnique spfx seen sid0 index (seen.length + 2)
    let student_id := res.1
    let index2 := res.2
    let proposal_candidate := ppfx ++ pyPad3 index2
    let pid0 := extract_proposal_id stem proposal_candidate
    let meta := match_metadata pdf metadata
    let author_name := match meta with | some m => m.author_name | none => ""
    let proposal_title :=
      match meta with
      | some m => if m.proposal_title ≠ "" then m.proposal_title else stem
      | none => stem
    let proposal_id :=
      match meta with
      | some m => if m.proposal_id ≠ "" then m.proposal_id else pid0
      | none => pid0
    ⟨student_id, proposal_id, pdf.name, author_name, proposal_title⟩
      :: buildRecordsAux metadata spfx ppfx rest (student_id :: seen) (index2 + 1)

/-- Embedding of `build_records`. -/
def build_records (pdf_files : List PDFDoc) (student_pfx proposal_pfx : String)
    (start_index : Nat) (metadata : List (String × MetadataRecord)) :
    List ProposalRecord :=
  buildRecordsAux metadata student_pfx proposal_pfx pdf_files [] start_index

/-- The Review Source Registry of `generate_master_key.py`
(`SOURCE_TYPES`), in dict insertion order. -/
def SOURCE_TYPES : List (String × String) :=
  [("H1", "Human"), ("H2", "Human"), ("AI1", "AI"), ("AI2", "AI")]

/-- The internal source identifiers, `list(SOURCE_TYPES.keys())`. -/
def internalSources : List String := SOURCE_TYPES.map Prod.fst

/-- The fixed public label list,
`[f"Review_{i}" for i in range(1, len(SOURCE_TYPES) + 1)]`. -/
def PUBLIC_REVIEW_NAMES : List String :=
  (List.range SOURCE_TYPES.length).map (fun i => "Review_" ++ pyNatRepr (i + 1))

/-- One row of `Master_Key.csv`. -/
structure KeyRow where
  studentId : String
  internalName : String
  trueSource : String
  publicName : String
deriving DecidableEq

/-- The inner loop of `generate_and_randomize_key` for one student: pair
the internal sources, in registry order, with the drawn public labels. -/
def perStudentRows (sid : String) (drawn : List String) : List KeyRow :=
  (SOURCE_TYPES.zip drawn).map fun p =>
    { studentId := sid
      internalName := sid ++ "_" ++ p.1.1 ++ ".pdf"
      trueSource := p.1.2
      publicName := p.2 }

/-- The full master-key table: the random draws are the injected
environment `perms`, giving for each student position the shuffled copy of
the public label list produced by `random.shuffle`. -/
def masterKeyData (student_ids : List String) (perms : Nat → List String) :
    List KeyRow :=
  student_ids.enum.flatMap fun p => perStudentRows p.2 (perms p.1)

/-- The expected artifact name for one student and one internal source. -/
def expectedFile (sid src : String) : String := sid ++ "_" ++ src ++ ".pdf"

/-- Embedding of `validate_review_files`; the file system is the oracle
`fsHas`. -/
def validate_review_files (fsHas : String → Bool) (student_ids : List String) :
    List String :=
  student_ids.flatMap fun sid =>
    internalSources.filterMap fun src =>
      if fsHas (expectedFile sid src) then none else some (expectedFile sid src)

/-- The externally observable outcome of one `generate_and_randomize_key`
run: the exit code, the missing artifact names printed on the failure
path, and the written master key (if any). -/
structure RunResult where
  exitCode : Nat
  printedMissing : List String
  masterKey : Option (List KeyRow)
deriving DecidableEq

/-- The student ids parsed from the rows of `students.csv`:
skip the header row, take the stripped first column, drop empties. -/
def studentIdsOf (rows : List (List String)) : List String :=
  (rows.drop 1).filterMap fun row =>
    match row with
    | [] => none
    | c :: _ => let s := pyStrip c; if s = "" then none else some s

/-- Embedding of `generate_and_randomize_key` from the point where the
student file has been read into `rows`.  On the failure path the code
prints only the first 20 missing names (`missing_files[:20]`). -/
def generate_and_randomize_key (fsHas : String → Bool)
    (rows : List (List String)) (perms : Nat → List String) : RunResult :=
  let student_ids := studentIdsOf rows
  if student_ids = [] then ⟨1, [], none⟩
  else
    let missing_files := validate_review_files fsHas student_ids
    if missing_files ≠ [] then ⟨1, missing_files.take 20, none⟩
    else ⟨0, [], some (masterKeyData student_ids perms)⟩

/-- C8 (claim theorem): `normalize_value` is a total Lean function and is
idempotent: normalizing twice equals normalizing once. -/
theorem c8_normalize_idempotent (s : String) :
    normalize_value (normalize_value s) = normalize_value s := by
  have hkeep := normalize_value_chars s
  show (⟨((⟨(normalize_value s).data.map pyLowerChar⟩ : String)).data.filter isKeepChar⟩ : String)
      = normalize_value s
  have hmap : (normalize_value s).data.map pyLowerChar = (normalize_value s).data :=
    map_pyLowerChar_of_keep _ hkeep
  have hfil : (normalize_value s).data.filter isKeepChar = (normalize_value s).data :=
    List.filter_eq_self.mpr hkeep
  simp only [hmap, hfil]

/-! ### CSV layer

Model of the Python `csv` module with the default dialect as used by
`write_mapping_csv` (delimiter `,`, quote char `"`, `QUOTE_MINIMAL`,
doubled quotes, line terminator CRLF), and of `csv.reader` on such
files. -/

/-- Does a field need quoting under `QUOTE_MINIMAL`? -/
def needsQuote (s : String) : Bool :=
  s.data.any fun c => c = ',' ∨ c = '"' ∨ c = '\r' ∨ c = '\n'

/-- Double every quote character (the `doublequote` escape). -/
def escQuotes : List Char → List Char
  | [] => []
  | c :: t => if c = '"' then '"' :: '"' :: escQuotes t else c :: escQuotes t

/-- Serialize one field under `QUOTE_MINIMAL`. -/
def serField (s : String) : List Char :=
  if needsQuote s then '"' :: (escQuotes s.data ++ ['"']) else s.data

/-- Join the serialized fields of one row with the `,` delimiter. -/
def serFieldsJoin : List String → List Char
  | [] => []
  | [f] => serField f
  | f :: g :: fs => serField f ++ ',' :: serFieldsJoin (g :: fs)

/-- Serialize one row, terminated by CRLF. -/
def serRow (fields : List String) : List Char :=
  serFieldsJoin fields ++ ['\r', '\n']

/-- Serialize a list of rows (the whole file). -/
def serRows (rows : List (List String)) : List Char :=
  (rows.map serRow).flatten

/-- The roster row written for one record by `write_mapping_csv`. -/
def mappingRow (r : ProposalRecord) : List String :=
  [r.proposal_id, r.student_id, r.author_name, r.proposal_title, r.filename]

/-- The header row of `proposal_mapping.csv`. -/
def mappingHeader : List String :=
  ["Proposal_ID", "Student_ID", "Author_Name", "Proposal_Title", "Proposal_Filename"]

/-- Embedding of `write_mapping_csv`: the full text written to the file. -/
def write_mapping_csv (records : List ProposalRecord) : String :=
  ⟨serRows (mappingHeader :: records.map mappingRow)⟩

/-- Parser modes of the CSV reader state machine. -/
inductive CsvMode | fieldStart | unquoted | quoted
deriving DecidableEq

/-- Skip one linefeed after a carriage return. -/
def dropLF : List Char → List Char
  | '\n' :: t => t
  | cs => cs

theorem dropLF_length_le (cs : List Char) : (dropLF cs).length ≤ cs.length := by
  match cs with
  | [] => exact Nat.le_refl _
  | c :: t =>
      by_cases h : c = '\n'
      · subst h
        show t.length ≤ t.length + 1
        omega
      · have : dropLF (c :: t) = c :: t := by
          unfold dropLF
          split
          · rename_i heq
            rw [List.cons.injEq] at heq
            exact absurd heq.1 h
          · rfl
        rw [this]

/-- The row emitted when a row terminator is met at field start:
an empty line yields `[]`, otherwise the pending row gains one final
empty field. -/
def endRowAtStart (curRow : List String) : List String :=
  if curRow = [] then [] else curRow ++ [""]

/-- The CSV reader state machine (model of `csv.reader`):
`mode` is the parser state, then the remaining input, the current field,
the fields of the current row, and the completed rows. -/
def csvRun (mode : CsvMode) (input : List Char) (field : List Char)
    (curRow : List String) (rows : List (List String)) : List (List String) :=
  match mode, input with
  | .fieldStart, [] => if curRow = [] then rows else rows ++ [curRow ++ [""]]
  | .unquoted, [] => rows ++ [curRow ++ [(⟨field⟩ : String)]]
  | .quoted, [] => rows ++ [curRow ++ [(⟨field⟩ : String)]]
  | .fieldStart, c :: cs =>
    if c = '"' then csvRun .quoted cs [] curRow rows
    else if c = ',' then csvRun .fieldStart cs [] (curRow ++ [""]) rows
    else if c = '\r' then csvRun .fieldStart (dropLF cs) [] [] (rows ++ [endRowAtStart curRow])
    else if c = '\n' then csvRun .fieldStart cs [] [] (rows ++ [endRowAtStart curRow])
    else csvRun .unquoted cs [c] curRow rows
  | .unquoted, c :: cs =>
    if c = ',' then csvRun .fieldStart cs [] (curRow ++ [(⟨field⟩ : String)]) rows
    else if c = '\r' then
      csvRun .fieldStart (dropLF cs) [] [] (rows ++ [curRow ++ [(⟨field⟩ : String)]])
    else if c = '\n' then
      csvRun .fieldStart cs [] [] (rows ++ [curRow ++ [(⟨field⟩ : String)]])
    else csvRun .unquoted cs (field ++ [c]) curRow rows
  | .quoted, c :: cs =>
    if c = '"' then
      match cs with
      | d :: ds =>
        if d = '"' then csvRun .quoted ds (field ++ ['"']) curRow rows
        else csvRun .unquoted (d :: ds) field curRow rows
      | [] => csvRun .unquoted [] field curRow rows
    else csvRun .quoted cs (field ++ [c]) curRow rows
termination_by input.length
decreasing_by
  all_goals
    first
    | (have h9 : (dropLF cs).length ≤ cs.length := dropLF_length_le cs
       simp only [List.length_cons]; omega)
    | (simp only [List.length_cons]; omega)

/-- Model of reading a whole CSV file with `csv.reader`. -/
def readCSV (s : String) : List (List String) :=
  csvRun .fieldStart s.data [] [] []

/-! ### Theorems -/

theorem list_len4 {α : Type} {l : List α} (h : l.length = 4) :
    ∃ a b c d, l = [a, b, c, d] := by
  match l with
  | [a, b, c, d] => exact ⟨a, b, c, d, rfl⟩
  | [] | [_] | [_, _] | [_, _, _] => simp at h
  | _ :: _ :: _ :: _ :: _ :: _ => simp at h

theorem PUBLIC_REVIEW_NAMES_eq :
    PUBLIC_REVIEW_NAMES = ["Review_1", "Review_2", "Review_3", "Review_4"] := by decide

/-- C1 (claim theorem): provided each random draw is (as `random.shuffle`
guarantees) a permutation of the public label list, the master key is the
concatenation of the per-student blocks, and within each processed
student block the emitted `Public_Review_Name` values are pairwise
distinct and exactly cover the fixed label set: they are a permutation of
`PUBLIC_REVIEW_NAMES`, so the source-to-label mapping is a bijection. -/
theorem c1_randomizer_labels_bijection (students : List String)
    (perms : Nat → List String)
    (h : ∀ i, (perms i).Perm PUBLIC_REVIEW_NAMES) :
    masterKeyData students perms
        = students.enum.flatMap (fun p => perStudentRows p.2 (perms p.1))
      ∧ ∀ i sid, (i, sid) ∈ students.enum →
          ((perStudentRows sid (perms i)).map KeyRow.publicName).Perm PUBLIC_REVIEW_NAMES
          ∧ ((perStudentRows sid (perms i)).map KeyRow.publicName).Nodup := by
  refine ⟨rfl, ?_⟩
  intro i sid _
  have hlen : (perms i).length = 4 := by
    have := (h i).length_eq
    rw [PUBLIC_REVIEW_NAMES_eq] at this
    simpa using this
  obtain ⟨a, b, c, d, he⟩ := list_len4 hlen
  have hmap : (perStudentRows sid (perms i)).map KeyRow.publicName = perms i := by
    rw [he]; rfl
  rw [hmap]
  refine ⟨h i, ?_⟩
  have hnd : PUBLIC_REVIEW_NAMES.Nodup := by decide
  exact (h i).symm.nodup hnd

theorem c1_witness :
    ((perStudentRows "S01" ["Review_2", "Review_1", "Review_4", "Review_3"]).map
        KeyRow.publicName).Perm PUBLIC_REVIEW_NAMES := by
  have h : ∀ i : Nat,
      ((fun _ : Nat => ["Review_2", "Review_1", "Review_4", "Review_3"]) i).Perm
        PUBLIC_REVIEW_NAMES := by
    intro i
    show (["Review_2", "Review_1", "Review_4", "Review_3"] : List String).Perm
      PUBLIC_REVIEW_NAMES
    decide
  exact ((c1_randomizer_labels_bijection ["S01"]
      (fun _ : Nat => ["Review_2", "Review_1", "Review_4", "Review_3"]) h).2
    0 "S01" (by decide)).1

/-- The non-randomized core of a key row. -/
def keyRowCore (r : KeyRow) : String × String × String :=
  (r.studentId, r.internalName, r.trueSource)

theorem perStudentRows_core (sid : String) (drawn : List String)
    (h : drawn.length = 4) :
    (perStudentRows sid drawn).map keyRowCore
      = SOURCE_TYPES.map (fun p => (sid, sid ++ "_" ++ p.1 ++ ".pdf", p.2)) := by
  obtain ⟨a, b, c, d, he⟩ := list_len4 h
  rw [he]; rfl

/-- C2 (claim theorem): the `True_Source` column is determined by the
Registry alone.  First conjunct: two runs differing only in their random
draws produce key tables that agree on everything except the public
label, hence on every `True_Source` value.  Second conjunct: within one
student block the `(Internal_Name, True_Source)` pairs are exactly the
Registry pairs `SOURCE_TYPES` (H1, H2 mapping to Human and AI1, AI2 to
AI), in registry order. -/
theorem c2_true_source_static (students : List String)
    (perms1 perms2 : Nat → List String)
    (h1 : ∀ i, (perms1 i).length = 4) (h2 : ∀ i, (perms2 i).length = 4) :
    (masterKeyData students perms1).map keyRowCore
        = (masterKeyData students perms2).map keyRowCore
      ∧ ∀ sid drawn, drawn.length = 4 →
          (perStudentRows sid drawn).map (fun r => (r.internalName, r.trueSource))
            = SOURCE_TYPES.map (fun p => (sid ++ "_" ++ p.1 ++ ".pdf", p.2)) := by
  constructor
  · show (students.enum.flatMap fun p => perStudentRows p.2 (perms1 p.1)).map keyRowCore
        = (students.enum.flatMap fun p => perStudentRows p.2 (perms2 p.1)).map keyRowCore
    generalize students.enum = l
    induction l with
    | nil => rfl
    | cons p t ih =>
        simp only [List.flatMap_cons, List.map_append, ih]
        congr 1
        rw [perStudentRows_core _ _ (h1 p.1), perStudentRows_core _ _ (h2 p.1)]
  · intro sid drawn h
    obtain ⟨a, b, c, d, he⟩ := list_len4 h
    rw [he]; rfl

theorem c2_witness :
    (masterKeyData ["S01"] (fun _ => ["Review_2", "Review_1", "Review_4", "Review_3"])).map
        keyRowCore
      = (masterKeyData ["S01"] (fun _ => ["Review_4", "Review_3", "Review_2", "Review_1"])).map
        keyRowCore := by
  have h1 : ∀ i : Nat,
      ((fun _ : Nat => ["Review_2", "Review_1", "Review_4", "Review_3"]) i).length = 4 := by
    intro i
    show (["Review_2", "Review_1", "Review_4", "Review_3"] : List String).length = 4
    decide
  have h2 : ∀ i : Nat,
      ((fun _ : Nat => ["Review_4", "Review_3", "Review_2", "Review_1"]) i).length = 4 := by
    intro i
    show (["Review_4", "Review_3", "Review_2", "Review_1"] : List String).length = 4
    decide
  exact (c2_true_source_static ["S01"]
      (fun _ : Nat => ["Review_2", "Review_1", "Review_4", "Review_3"])
      (fun _ : Nat => ["Review_4", "Review_3", "Review_2", "Review_1"]) h1 h2).1

theorem filterMap_missing (fsHas : String → Bool) (sid : String) :
    ∀ (srcs : List String),
      (srcs.filterMap fun src =>
          if fsHas (expectedFile sid src) then none else some (expectedFile sid src))
        = (srcs.map (expectedFile sid)).filter (fun f => !(fsHas f)) := by
  intro srcs
  induction srcs with
  | nil => rfl
  | cons src t ih =>
      simp only [List.filterMap_cons, List.map_cons, List.filter_cons]
      by_cases h : fsHas (expectedFile sid src) = true
      · simp only [h, if_pos, Bool.not_true, if_neg, ih]
        simp
      · have h' : fsHas (expectedFile sid src) = false := by
          revert h; cases fsHas (expectedFile sid src) <;> simp
        simp only [h', Bool.not_false, if_neg, ih]
        simp

/-- `validate_review_files` returns the complete missing list: every
expected artifact name, for every student and every internal source, that
the file-system oracle lacks, in roster-then-registry order. -/
theorem validate_eq_filter (fsHas : String → Bool) (ids : List String) :
    validate_review_files fsHas ids
      = (ids.flatMap fun sid => internalSources.map (expectedFile sid)).filter
          (fun f => !(fsHas f)) := by
  unfold validate_review_files
  induction ids with
  | nil => rfl
  | cons sid t ih =>
      rw [List.flatMap_cons, List.flatMap_cons, List.filter_append, ← ih]
      congr 1
      exact filterMap_missing fsHas sid internalSources

/-- C3 amended (claim theorem): the Completeness Validator returns the
full list of missing artifact names (one `<student>_<source>.pdf` per
absent expected file); when that list is non-empty the run exits with
status 1, never writes a master key, and prints the first 20 missing
names (the code truncates the printed list at 20, so not every name is
printed when more than 20 are missing). -/
theorem c3_validator_amended (fsHas : String → Bool)
    (rows : List (List String)) (perms : Nat → List String) :
    (validate_review_files fsHas (studentIdsOf rows)
        = ((studentIdsOf rows).flatMap fun sid =>
            internalSources.map (expectedFile sid)).filter (fun f => !(fsHas f)))
      ∧ (validate_review_files fsHas (studentIdsOf rows) ≠ [] →
          (generate_and_randomize_key fsHas rows perms).exitCode = 1
          ∧ (generate_and_randomize_key fsHas rows perms).printedMissing
              = (validate_review_files fsHas (studentIdsOf rows)).take 20
          ∧ (generate_and_randomize_key fsHas rows perms).masterKey = none) := by
  refine ⟨validate_eq_filter fsHas _, ?_⟩
  intro hne
  have hids : studentIdsOf rows ≠ [] := by
    intro h
    rw [h] at hne
    exact hne rfl
  unfold generate_and_randomize_key
  rw [if_neg hids, if_pos hne]
  exact ⟨rfl, rfl, rfl⟩

theorem c3_validator_amended_witness :
    (generate_and_randomize_key (fun _ => false) [["student_id"], ["S1"]] (fun _ => [])).printedMissing
      = ["S1_H1.pdf", "S1_H2.pdf", "S1_AI1.pdf", "S1_AI2.pdf"] := by
  have h := (c3_validator_amended (fun _ => false) [["student_id"], ["S1"]]
      (fun _ => [])).2 (by decide)
  rw [h.2.1]
  decide

/-- C3 counterexample: with six students and every artifact absent there
are 24 missing files; the failure path prints only the first 20 names, so
`S6_AI2.pdf` is missing but never printed — the claim that every missing
artifact name is printed is false (the rest of the claim holds: exit
status 1 and no key written). -/
theorem c3_counterexample :
    "S6_AI2.pdf" ∈ validate_review_files (fun _ => false)
        (studentIdsOf [["student_id"], ["S1"], ["S2"], ["S3"], ["S4"], ["S5"], ["S6"]])
      ∧ "S6_AI2.pdf" ∉ (generate_and_randomize_key (fun _ => false)
          [["student_id"], ["S1"], ["S2"], ["S3"], ["S4"], ["S5"], ["S6"]]
          (fun _ => [])).printedMissing
      ∧ (generate_and_randomize_key (fun _ => false)
          [["student_id"], ["S1"], ["S2"], ["S3"], ["S4"], ["S5"], ["S6"]]
          (fun _ => [])).exitCode = 1
      ∧ (generate_and_randomize_key (fun _ => false)
          [["student_id"], ["S1"], ["S2"], ["S3"], ["S4"], ["S5"], ["S6"]]
          (fun _ => [])).masterKey = none := by
  decide

theorem lookupA_append_left {α : Type} (m1 m2 : List (String × α)) (k : String)
    (v : α) (h : lookupA m1 k = some v) : lookupA (m1 ++ m2) k = some v := by
  induction m1 with
  | nil => simp [lookupA] at h
  | cons p t ih =>
      rw [List.cons_append]
      unfold lookupA at h ⊢
      by_cases hk : p.1 = k
      · simpa [hk] using h
      · rw [if_neg hk] at h ⊢
        exact ih h

theorem insertIfAbsent_preserves (m : List (String × MetadataRecord))
    (k : String) (v : MetadataRecord) (k' : String) (v' : MetadataRecord)
    (h : lookupA m k = some v) : lookupA (insertIfAbsent m k' v') k = some v := by
  unfold insertIfAbsent
  cases lookupA m k' with
  | some _ => exact h
  | none => exact lookupA_append_left m [(k', v')] k v h

/-- One row-processing step of `load_metadata`. -/
def loadStep (m : List (String × MetadataRecord)) (row : String × String × String) :
    List (String × MetadataRecord) :=
  let proposal_id := pyStrip row.1
  let author := pyStrip row.2.1
  let title := pyStrip row.2.2
  if proposal_id = "" ∧ title = "" then m
  else
    let record : MetadataRecord := ⟨proposal_id, author, title⟩
    let m := if title ≠ "" then insertIfAbsent m (normalize_value title) record else m
    if proposal_id ≠ "" then insertIfAbsent m ("id:" ++ pyLower proposal_id) record else m

theorem load_metadata_eq_foldl (rows : List (String × String × String)) :
    load_metadata rows = rows.foldl loadStep [] := rfl

theorem loadStep_preserves (m : List (String × MetadataRecord))
    (row : String × String × String) (k : String) (v : MetadataRecord)
    (h : lookupA m k = some v) : lookupA (loadStep m row) k = some v := by
  unfold loadStep
  by_cases h0 : pyStrip row.1 = "" ∧ pyStrip row.2.2 = ""
  · rw [if_pos h0]; exact h
  · rw [if_neg h0]
    dsimp only
    by_cases ht : pyStrip row.2.2 ≠ ""
    · rw [if_pos ht]
      by_cases hp : pyStrip row.1 ≠ ""
      · rw [if_pos hp]
        exact insertIfAbsent_preserves _ _ _ _ _ (insertIfAbsent_preserves _ _ _ _ _ h)
      · rw [if_neg hp]
        exact insertIfAbsent_preserves _ _ _ _ _ h
    · rw [if_neg ht]
      by_cases hp : pyStrip row.1 ≠ ""
      · rw [if_pos hp]
        exact insertIfAbsent_preserves _ _ _ _ _ h
      · rw [if_neg hp]
        exact h

theorem foldl_loadStep_preserves (suf : List (String × String × String)) :
    ∀ (m : List (String × MetadataRecord)) (k : String) (v : MetadataRecord),
      lookupA m k = some v → lookupA (suf.foldl loadStep m) k = some v := by
  induction suf with
  | nil => intro m k v h; exact h
  | cons row t ih =>
      intro m k v h
      exact ih _ k v (loadStep_preserves m row k v h)

theorem insertIfAbsent_extends (m : List (String × MetadataRecord))
    (k : String) (v : MetadataRecord) :
    ∃ t, insertIfAbsent m k v = m ++ t := by
  unfold insertIfAbsent
  cases lookupA m k with
  | some _ => exact ⟨[], by simp⟩
  | none => exact ⟨[(k, v)], rfl⟩

theorem loadStep_extends (m : List (String × MetadataRecord))
    (row : String × String × String) : ∃ t, loadStep m row = m ++ t := by
  unfold loadStep
  by_cases h0 : pyStrip row.1 = "" ∧ pyStrip row.2.2 = ""
  · rw [if_pos h0]; exact ⟨[], by simp⟩
  · rw [if_neg h0]
    dsimp only
    by_cases ht : pyStrip row.2.2 ≠ ""
    · rw [if_pos ht]
      by_cases hp : pyStrip row.1 ≠ ""
      · rw [if_pos hp]
        obtain ⟨t1, e1⟩ := insertIfAbsent_extends m (normalize_value (pyStrip row.2.2))
          ⟨pyStrip row.1, pyStrip row.2.1, pyStrip row.2.2⟩
        obtain ⟨t2, e2⟩ := insertIfAbsent_extends
          (insertIfAbsent m (normalize_value (pyStrip row.2.2))
            ⟨pyStrip row.1, pyStrip row.2.1, pyStrip row.2.2⟩)
          ("id:" ++ pyLower (pyStrip row.1))
          ⟨pyStrip row.1, pyStrip row.2.1, pyStrip row.2.2⟩
        exact ⟨t1 ++ t2, by rw [e2, e1, List.append_assoc]⟩
      · rw [if_neg hp]
        exact insertIfAbsent_extends _ _ _
    · rw [if_neg ht]
      by_cases hp : pyStrip row.1 ≠ ""
      · rw [if_pos hp]
        exact insertIfAbsent_extends _ _ _
      · rw [if_neg hp]
        exact ⟨[], by simp⟩

theorem foldl_loadStep_extends (suf : List (String × String × String)) :
    ∀ (m : List (String × MetadataRecord)), ∃ t, suf.foldl loadStep m = m ++ t := by
  induction suf with
  | nil => intro m; exact ⟨[], by simp⟩
  | cons row rest ih =>
      intro m
      obtain ⟨t1, e1⟩ := loadStep_extends m row
      obtain ⟨t2, e2⟩ := ih (loadStep m row)
      exact ⟨t1 ++ t2, by rw [List.foldl_cons, e2, e1, List.append_assoc]⟩

/-- C7 (claim theorem): the metadata lookup has first-write-wins
semantics.  Any key bound after loading a row sequence keeps exactly the
same record after loading further rows (later rows never overwrite,
whether the collision is on a normalized-title key or an `id:` key), and
the key sequence of the larger load extends that of the smaller one, so
insertion order of keys is preserved. -/
theorem c7_first_write_wins (pre suf : List (String × String × String))
    (k : String) (v : MetadataRecord)
    (h : lookupA (load_metadata pre) k = some v) :
    lookupA (load_metadata (pre ++ suf)) k = some v
      ∧ ∃ t, (load_metadata (pre ++ suf)).map Prod.fst
          = (load_metadata pre).map Prod.fst ++ t := by
  rw [load_metadata_eq_foldl, List.foldl_append, ← load_metadata_eq_foldl]
  constructor
  · exact foldl_loadStep_preserves suf _ k v h
  · obtain ⟨t, e⟩ := foldl_loadStep_extends suf (load_metadata pre)
    exact ⟨t.map Prod.fst, by rw [e, List.map_append]⟩

theorem c7_first_write_wins_witness :
    lookupA (load_metadata [("P1", "Alice", "T one"), ("P2", "Bob", "T one")]) "tone"
      = some ⟨"P1", "Alice", "T one"⟩ :=
  (c7_first_write_wins [("P1", "Alice", "T one")] [("P2", "Bob", "T one")]
      "tone" ⟨"P1", "Alice", "T one"⟩ (by decide)).1

theorem takeWhile_digits_append (ds rest : List Char)
    (hds : ∀ d ∈ ds, pyIsDigit d = true) (hrest : headIsDigit rest = false) :
    (ds ++ rest).takeWhile pyIsDigit = ds := by
  induction ds with
  | nil =>
      cases rest with
      | nil => rfl
      | cons r rs =>
          have : pyIsDigit r = false := hrest
          simp [List.takeWhile_cons, this]
  | cons d t ih =>
      have hd : pyIsDigit d = true := hds d (List.mem_cons_self d t)
      simp only [List.cons_append, List.takeWhile_cons, hd, if_pos]
      rw [ih (fun e he => hds e (List.mem_cons_of_mem d he))]

theorem matchAnchored_pos (c0 : Char) (ds rest : List Char) (hne : ds ≠ [])
    (hds : ∀ d ∈ ds, pyIsDigit d = true) (hrest : headIsDigit rest = false) :
    matchAnchored c0 (c0 :: (ds ++ rest)) = some (c0 :: ds) := by
  have hhead : headIsDigit (ds ++ rest) = true := by
    cases ds with
    | nil => exact absurd rfl hne
    | cons d t => exact hds d (List.mem_cons_self d t)
  unfold matchAnchored
  show (if c0 = c0 ∧ headIsDigit (ds ++ rest) = true then
      some (c0 :: List.takeWhile pyIsDigit (ds ++ rest)) else none) = some (c0 :: ds)
  rw [if_pos ⟨rfl, hhead⟩, takeWhile_digits_append ds rest hds hrest]

theorem matchAnchored_none (c0 : Char) (cs : List Char)
    (h : ∀ (ds rest : List Char), ds ≠ [] → (∀ d ∈ ds, pyIsDigit d = true) →
        cs ≠ c0 :: (ds ++ rest)) :
    matchAnchored c0 cs = none := by
  cases cs with
  | nil => rfl
  | cons c t =>
      unfold matchAnchored
      show (if c = c0 ∧ headIsDigit t = true then
          some (c0 :: List.takeWhile pyIsDigit t) else none) = none
      rw [if_neg]
      intro ⟨h1, h2⟩
      cases t with
      | nil => exact Bool.noConfusion h2
      | cons d rs =>
          have hd : pyIsDigit d = true := h2
          refine h [d] rs (by simp)
            (fun e he => by rw [List.mem_singleton] at he; rwa [he]) ?_
          rw [h1]
          rfl

/-- C10 (claim theorem): embedded-identifier extraction is
case-insensitive (the stem is upper-cased before matching) but anchored
at the start of the stem.  If the upper-cased stem begins with `S`
(resp. `P`) followed by a maximal non-empty digit run, that identifier is
returned; whenever the upper-cased stem does not begin with `S`
(resp. `P`) immediately followed by a digit — in particular when an
identifier occurs only later in the stem, as in `Smith_S01` or
`thesis_S01` — the supplied fallback is returned. -/
theorem c10_extract_anchored :
    (∀ (fname fallback : String) (ds rest : List Char),
        (pyUpper (pyStem fname)).data = 'S' :: (ds ++ rest) →
        ds ≠ [] →
        (∀ d ∈ ds, pyIsDigit d = true) →
        headIsDigit rest = false →
        extract_student_id fname fallback = (⟨'S' :: ds⟩ : String))
    ∧ (∀ (stem fallback : String) (ds rest : List Char),
        (pyUpper stem).data = 'P' :: (ds ++ rest) →
        ds ≠ [] →
        (∀ d ∈ ds, pyIsDigit d = true) →
        headIsDigit rest = false →
        extract_proposal_id stem fallback = (⟨'P' :: ds⟩ : String))
    ∧ (∀ (fname fallback : String),
        (∀ (ds rest : List Char), ds ≠ [] → (∀ d ∈ ds, pyIsDigit d = true) →
            (pyUpper (pyStem fname)).data ≠ 'S' :: (ds ++ rest)) →
        extract_student_id fname fallback = fallback)
    ∧ (∀ (stem fallback : String),
        (∀ (ds rest : List Char), ds ≠ [] → (∀ d ∈ ds, pyIsDigit d = true) →
            (pyUpper stem).data ≠ 'P' :: (ds ++ rest)) →
        extract_proposal_id stem fallback = fallback) := by
  refine ⟨?_, ?_, ?_, ?_⟩
  · intro fname fallback ds rest hdata hne hds hrest
    unfold extract_student_id
    dsimp only
    rw [hdata, matchAnchored_pos 'S' ds rest hne hds hrest]
  · intro stem fallback ds rest hdata hne hds hrest
    unfold extract_proposal_id
    rw [hdata, matchAnchored_pos 'P' ds rest hne hds hrest]
  · intro fname fallback h
    unfold extract_student_id
    dsimp only
    rw [matchAnchored_none 'S' _ h]
  · intro stem fallback h
    unfold extract_proposal_id
    rw [matchAnchored_none 'P' _ h]

theorem c10_extract_anchored_witness :
    extract_student_id "s003_H1.pdf" "S99" = "S003"
      ∧ extract_proposal_id "p010_x" "P99" = "P010"
      ∧ extract_student_id "thesis_S01.pdf" "S99" = "S99"
      ∧ extract_student_id "Smith_S01.pdf" "S99" = "S99"
      ∧ extract_proposal_id "draft_P7" "P99" = "P99" := by
  have h := c10_extract_anchored
  refine ⟨?_, ?_, ?_, ?_, ?_⟩
  · have e := h.1 "s003_H1.pdf" "S99" ['0', '0', '3'] ['_', 'H', '1']
      (by decide) (by decide) (by decide) (by decide)
    rw [e]
  · have e := h.2.1 "p010_x" "P99" ['0', '1', '0'] ['_', 'X']
      (by decide) (by decide) (by decide) (by decide)
    rw [e]
  · refine h.2.2.1 "thesis_S01.pdf" "S99" ?_
    intro ds rest _ _ heq
    rw [show (pyUpper (pyStem "thesis_S01.pdf")).data
        = ['T', 'H', 'E', 'S', 'I', 'S', '_', 'S', '0', '1'] from by decide] at heq
    rw [List.cons.injEq] at heq
    exact absurd heq.1 (by decide)
  · refine h.2.2.1 "Smith_S01.pdf" "S99" ?_
    intro ds rest hne hds heq
    rw [show (pyUpper (pyStem "Smith_S01.pdf")).data
        = ['S', 'M', 'I', 'T', 'H', '_', 'S', '0', '1'] from by decide] at heq
    rw [List.cons.injEq] at heq
    obtain ⟨-, htail⟩ := heq
    cases ds with
    | nil => exact hne rfl
    | cons d ds' =>
        rw [List.cons_append, List.cons.injEq] at htail
        have hd := hds d (List.mem_cons_self d ds')
        rw [← htail.1] at hd
        exact absurd hd (by decide)
  · refine h.2.2.2 "draft_P7" "P99" ?_
    intro ds rest _ _ heq
    rw [show (pyUpper "draft_P7").data
        = ['D', 'R', 'A', 'F', 'T', '_', 'P', '7'] from by decide] at heq
    rw [List.cons.injEq] at heq
    exact absurd heq.1 (by decide)

/-- The combined per-record acceptance test of the strategy-3/4 loop. -/
def loopAccept (npt t : String) (kr : String × MetadataRecord) : Bool :=
  !(listStarts "id:".data kr.1.data)
    && (isSubstr npt.data kr.1.data || isSubstr kr.1.data npt.data
        || wordOverlapGe t kr.2.proposal_title)

theorem matchLoop_cons (npt t key : String) (record : MetadataRecord)
    (rest : List (String × MetadataRecord)) :
    matchLoop npt t ((key, record) :: rest)
      = (if listStarts "id:".data key.data then matchLoop npt t rest
        else if isSubstr npt.data key.data || isSubstr key.data npt.data then
          some record
        else if wordOverlapGe t record.proposal_title then some record
        else matchLoop npt t rest) := rfl

theorem matchLoop_eq_find (npt t : String) :
    ∀ (l : List (String × MetadataRecord)),
      matchLoop npt t l = (l.find? (loopAccept npt t)).map Prod.snd := by
  intro l
  induction l with
  | nil => rfl
  | cons kr rest ih =>
      obtain ⟨key, record⟩ := kr
      rw [matchLoop_cons]
      by_cases hid : listStarts "id:".data key.data = true
      · have hp : loopAccept npt t (key, record) = false := by
          unfold loopAccept
          rw [hid]
          rfl
        rw [if_pos hid, ih, List.find?_cons_of_neg _ (by simp [hp])]
      · have hidf : listStarts "id:".data key.data = false := by
          revert hid; cases listStarts "id:".data key.data <;> simp
        rw [if_neg hid]
        by_cases hsub :
            (isSubstr npt.data key.data || isSubstr key.data npt.data) = true
        · have hp : loopAccept npt t (key, record) = true := by
            unfold loopAccept
            rw [hidf, hsub]
            rfl
          rw [if_pos hsub, List.find?_cons_of_pos _ hp]
          rfl
        · have hsubf :
              (isSubstr npt.data key.data || isSubstr key.data npt.data) = false := by
            revert hsub
            cases isSubstr npt.data key.data <;> cases isSubstr key.data npt.data <;> simp
          rw [if_neg hsub]
          by_cases hov : wordOverlapGe t record.proposal_title = true
          · have hp : loopAccept npt t (key, record) = true := by
              unfold loopAccept
              rw [hidf, hsubf, hov]
              rfl
            rw [if_pos hov, List.find?_cons_of_pos _ hp]
            rfl
          · have hovf : wordOverlapGe t record.proposal_title = false := by
              revert hov; cases wordOverlapGe t record.proposal_title <;> simp
            have hp : loopAccept npt t (key, record) = false := by
              unfold loopAccept
              rw [hidf, hsubf, hovf]
              rfl
            rw [if_neg hov, ih, List.find?_cons_of_neg _ (by simp [hp])]

/-- C4 amended (claim theorem): strategies 3 and 4 are not a strict
cascade but are interleaved per stored record.  When strategies 1 and 2
and the exact content-title lookup all fail and an extracted title is
present, `match_metadata` returns the first stored non-`id:` record, in
insertion order, whose key passes the substring test or whose title
passes the word-overlap test — so a word-overlap match of an earlier
record wins over a substring match of a later record. -/
theorem c4_matcher_amended (pdf : PDFDoc)
    (metadata : List (String × MetadataRecord)) (t : String)
    (h1 : lookupA metadata (normalize_value (pyStem pdf.name)) = none)
    (h2 : (searchPDigits (pyStem pdf.name).data).bind
        (fun g => lookupA metadata ("id:" ++ pyLower ⟨g⟩)) = none)
    (h3 : pdf.extractedTitle = some t)
    (h4 : t ≠ "")
    (h5 : lookupA metadata (normalize_value t) = none) :
    match_metadata pdf metadata
      = (metadata.find? (loopAccept (normalize_value t) t)).map Prod.snd := by
  by_cases hm : metadata = []
  · subst hm
    rfl
  · unfold match_metadata
    rw [if_neg hm]
    dsimp only
    rw [h1]
    dsimp only
    rw [h2]
    dsimp only
    rw [h3]
    dsimp only
    rw [if_neg h4, h5]
    dsimp only
    exact matchLoop_eq_find (normalize_value t) t metadata

theorem c4_matcher_amended_witness :
    match_metadata ⟨"doc.pdf", some "gamma delta study"⟩
        [("gammadelta", ⟨"", "B Author", "gamma delta"⟩)]
      = (([("gammadelta", (⟨"", "B Author", "gamma delta"⟩ : MetadataRecord))].find?
          (loopAccept (normalize_value "gamma delta study") "gamma delta study")).map
          Prod.snd) :=
  c4_matcher_amended ⟨"doc.pdf", some "gamma delta study"⟩
    [("gammadelta", ⟨"", "B Author", "gamma delta"⟩)] "gamma delta study"
    (by decide) (by decide) rfl (by decide) (by decide)

/-- C4 counterexample: with two stored records, the first matching only
by word overlap and the second matching by substring containment of
normalized titles, `match_metadata` returns the first (word-overlap)
record, not the substring match — refuting the claimed strict ordering of
strategies 3 and 4. -/
theorem c4_counterexample :
    (isSubstr (normalize_value "gamma delta").data
        (normalize_value "gamma delta study").data = true)
      ∧ match_metadata ⟨"doc.pdf", some "gamma delta study"⟩
          (load_metadata
            [("", "A Author", "delta gamma study"), ("", "B Author", "gamma delta")])
        = some ⟨"", "A Author", "delta gamma study"⟩
      ∧ (isSubstr (normalize_value "gamma delta study").data
          (normalize_value "delta gamma study").data = false)
      ∧ (isSubstr (normalize_value "delta gamma study").data
          (normalize_value "gamma delta study").data = false) := by
  decide

theorem buildRecordsAux_length (metadata : List (String × MetadataRecord))
    (spfx ppfx : String) :
    ∀ (pdfs : List PDFDoc) (seen : List String) (index : Nat),
      (buildRecordsAux metadata spfx ppfx pdfs seen index).length = pdfs.length := by
  intro pdfs
  induction pdfs with
  | nil => intro seen index; rfl
  | cons pdf rest ih =>
      intro seen index
      unfold buildRecordsAux
      dsimp only
      rw [List.length_cons, List.length_cons, ih]

/-- One step of the `(assigned ids, running index)` state evolution of
`build_records`: resolve the student id for one document and advance the
index past the while loop. -/
def buildStep (spfx : String) (st : List String × Nat) (pdf : PDFDoc) :
    List String × Nat :=
  ((resolveUnique spfx st.1 (extract_student_id pdf.name (spfx ++ pyPad2 st.2))
      st.2 (st.1.length + 2)).1 :: st.1,
    (resolveUnique spfx st.1 (extract_student_id pdf.name (spfx ++ pyPad2 st.2))
      st.2 (st.1.length + 2)).2 + 1)

/-- The builder state after processing a list of documents. -/
def buildState (spfx : String) (pdfs : List PDFDoc) (st : List String × Nat) :
    List String × Nat :=
  pdfs.foldl (buildStep spfx) st

/-- The filename-derived or generated proposal-id fallback computed for
one document at builder state `st`: the embedded `P`+digits identifier of
the stem when present, otherwise the generated candidate built from the
post-loop index. -/
def pidFallback (spfx ppfx : String) (st : List String × Nat) (pdf : PDFDoc) :
    String :=
  extract_proposal_id (pyStem pdf.name)
    (ppfx ++ pyPad3 (resolveUnique spfx st.1
      (extract_student_id pdf.name (spfx ++ pyPad2 st.2)) st.2
      (st.1.length + 2)).2)

/-- The per-position characterization of the fields of the record built
for the i-th document: the filename is copied, the author name and
proposal title come from the metadata match (with the documented
fallbacks), and the proposal id is the matched non-empty value when one
exists and otherwise the filename-derived or generated fallback. -/
theorem buildRecordsAux_fields (metadata : List (String × MetadataRecord))
    (spfx ppfx : String) :
    ∀ (pdfs : List PDFDoc) (seen : List String) (index : Nat) (i : Nat)
      (hi : i < pdfs.length)
      (hi' : i < (buildRecordsAux metadata spfx ppfx pdfs seen index).length),
      ((buildRecordsAux metadata spfx ppfx pdfs seen index).get ⟨i, hi'⟩).filename
          = (pdfs.get ⟨i, hi⟩).name
      ∧ ((buildRecordsAux metadata spfx ppfx pdfs seen index).get ⟨i, hi'⟩).author_name
          = (match match_metadata (pdfs.get ⟨i, hi⟩) metadata with
            | some m => m.author_name
            | none => "")
      ∧ ((buildRecordsAux metadata spfx ppfx pdfs seen index).get ⟨i, hi'⟩).proposal_title
          = (match match_metadata (pdfs.get ⟨i, hi⟩) metadata with
            | some m =>
              if m.proposal_title ≠ "" then m.proposal_title
              else pyStem (pdfs.get ⟨i, hi⟩).name
            | none => pyStem (pdfs.get ⟨i, hi⟩).name)
      ∧ ((buildRecordsAux metadata spfx ppfx pdfs seen index).get ⟨i, hi'⟩).proposal_id
          = (match match_metadata (pdfs.get ⟨i, hi⟩) metadata with
            | some m =>
              if m.proposal_id ≠ "" then m.proposal_id
              else pidFallback spfx ppfx (buildState spfx (pdfs.take i) (seen, index))
                (pdfs.get ⟨i, hi⟩)
            | none =>
              pidFallback spfx ppfx (buildState spfx (pdfs.take i) (seen, index))
                (pdfs.get ⟨i, hi⟩)) := by
  intro pdfs
  induction pdfs with
  | nil =>
      intro seen index i hi
      exact absurd hi (by simp)
  | cons pdf rest ih =>
      intro seen index i hi hi'
      match i with
      | 0 => exact ⟨rfl, rfl, rfl, rfl⟩
      | j + 1 =>
          have hj : j < rest.length := by
            rw [List.length_cons] at hi
            omega
          have hj' : j < (buildRecordsAux metadata spfx ppfx rest
              ((resolveUnique spfx seen
                (extract_student_id pdf.name (spfx ++ pyPad2 index)) index
                (seen.length + 2)).1 :: seen)
              ((resolveUnique spfx seen
                (extract_student_id pdf.name (spfx ++ pyPad2 index)) index
                (seen.length + 2)).2 + 1)).length := by
            rw [buildRecordsAux_length]
            exact hj
          exact ih _ _ j hj hj'

/-- C5 amended (claim theorem): for every input document,
`build_records` copies the filename; sets `author_name` to the matched
record author whenever a metadata match exists (even when the matched
`proposal_id` is empty) and to the empty string otherwise; sets
`proposal_title` to the matched record title whenever a match with a
non-empty title exists and to the filename stem otherwise (in particular
on no match); and sets `proposal_id` to the matched record value exactly
when a match exists and its `proposal_id` is non-empty, and otherwise —
on no match, or on a match with empty `proposal_id` — to the
filename-derived identifier or generated candidate `pidFallback`.
Processing always continues: the function is total. -/
theorem c5_record_overrides_amended (pdfs : List PDFDoc)
    (spfx ppfx : String) (start_index : Nat)
    (metadata : List (String × MetadataRecord)) (i : Nat)
    (hi : i < pdfs.length)
    (hi' : i < (build_records pdfs spfx ppfx start_index metadata).length) :
    ((build_records pdfs spfx ppfx start_index metadata).get ⟨i, hi'⟩).filename
        = (pdfs.get ⟨i, hi⟩).name
      ∧ ((build_records pdfs spfx ppfx start_index metadata).get ⟨i, hi'⟩).author_name
          = (match match_metadata (pdfs.get ⟨i, hi⟩) metadata with
            | some m => m.author_name
            | none => "")
      ∧ ((build_records pdfs spfx ppfx start_index metadata).get ⟨i, hi'⟩).proposal_title
          = (match match_metadata (pdfs.get ⟨i, hi⟩) metadata with
            | some m =>
              if m.proposal_title ≠ "" then m.proposal_title
              else pyStem (pdfs.get ⟨i, hi⟩).name
            | none => pyStem (pdfs.get ⟨i, hi⟩).name)
      ∧ ((build_records pdfs spfx ppfx start_index metadata).get ⟨i, hi'⟩).proposal_id
          = (match match_metadata (pdfs.get ⟨i, hi⟩) metadata with
            | some m =>
              if m.proposal_id ≠ "" then m.proposal_id
              else pidFallback spfx ppfx
                (buildState spfx (pdfs.take i) ([], start_index)) (pdfs.get ⟨i, hi⟩)
            | none =>
              pidFallback spfx ppfx
                (buildState spfx (pdfs.take i) ([], start_index)) (pdfs.get ⟨i, hi⟩)) :=
  buildRecordsAux_fields metadata spfx ppfx pdfs [] start_index i hi hi'

theorem c5_record_overrides_amended_witness :
    ((build_records [⟨"Some Good Title.pdf", none⟩] "S" "P" 1
        (load_metadata [("P7", "Alice", "Some Good Title")])).get
      ⟨0, by decide⟩).author_name = "Alice"
      ∧ ((build_records [⟨"Some Good Title.pdf", none⟩] "S" "P" 1
          (load_metadata [("P7", "Alice", "Some Good Title")])).get
        ⟨0, by decide⟩).proposal_id = "P7"
      ∧ ((build_records [⟨"titleless.pdf", none⟩] "S" "P" 1
          (load_metadata [("P7", "Alice", "Some Good Title")])).get
        ⟨0, by decide⟩).proposal_id
          = pidFallback "S" "P" (buildState "S" [] ([], 1)) ⟨"titleless.pdf", none⟩ := by
  have h := c5_record_overrides_amended [⟨"Some Good Title.pdf", none⟩] "S" "P" 1
    (load_metadata [("P7", "Alice", "Some Good Title")]) 0 (by decide) (by decide)
  have h2 := c5_record_overrides_amended [⟨"titleless.pdf", none⟩] "S" "P" 1
    (load_metadata [("P7", "Alice", "Some Good Title")]) 0 (by decide) (by decide)
  refine ⟨?_, ?_, ?_⟩
  · rw [h.2.1]
    decide
  · rw [h.2.2.2]
    decide
  · rw [h2.2.2.2]
    decide

/-- C5 counterexample: with one metadata row whose `proposal_id` is empty
but whose title matches the document, a match exists with empty
`proposal_id`, and `build_records` nevertheless overrides `author_name`
with the record's author — refuting the claim that the `author_name`
override happens exactly when the matched `proposal_id` is non-empty. -/
theorem c5_counterexample :
    match_metadata ⟨"Some Good Title.pdf", none⟩
        (load_metadata [("", "Alice", "Some Good Title")])
      = some ⟨"", "Alice", "Some Good Title"⟩
      ∧ (build_records [⟨"Some Good Title.pdf", none⟩] "S" "P" 1
          (load_metadata [("", "Alice", "Some Good Title")])).map
          (fun r => r.author_name) = ["Alice"] := by
  decide

theorem resolve_step (spfx : String) (seen : List String) :
    ∀ (fuel : Nat) (sid : String) (index : Nat),
      (sid ∉ seen ∨ ∃ k, k < fuel ∧ (spfx ++ pyPad2 (index + k + 1)) ∉ seen) →
      (resolveUnique spfx seen sid index fuel).1 ∉ seen := by
  intro fuel
  induction fuel with
  | zero =>
      intro sid index h
      rcases h with h | ⟨k, hk, _⟩
      · exact h
      · omega
  | succ fuel ih =>
      intro sid index h
      unfold resolveUnique
      by_cases hs : sid ∈ seen
      · rw [if_pos hs]
        rcases h with h | ⟨k, hk, hnot⟩
        · exact absurd hs h
        · match k with
          | 0 => exact ih _ _ (Or.inl hnot)
          | j + 1 =>
              refine ih _ _ (Or.inr ⟨j, by omega, ?_⟩)
              have : index + (j + 1) + 1 = index + 1 + j + 1 := by omega
              rwa [this] at hnot
      · rw [if_neg hs]
        exact hs

theorem exists_fresh_candidate (spfx : String) (seen : List String) (index : Nat) :
    ∃ k, k < seen.length + 1 ∧ (spfx ++ pyPad2 (index + k + 1)) ∉ seen := by
  by_contra hcon
  push_neg at hcon
  have hinj : Function.Injective (fun k => spfx ++ pyPad2 (index + k + 1)) := by
    intro a b hab
    have := candidate_inj spfx hab
    omega
  have hnd : ((List.range (seen.length + 1)).map
      (fun k => spfx ++ pyPad2 (index + k + 1))).Nodup :=
    List.Nodup.map hinj (List.nodup_range _)
  have hsub : ((List.range (seen.length + 1)).map
      (fun k => spfx ++ pyPad2 (index + k + 1))) ⊆ seen := by
    intro x hx
    rw [List.mem_map] at hx
    obtain ⟨k, hk, rfl⟩ := hx
    rw [List.mem_range] at hk
    exact hcon k hk
  have := (hnd.subperm hsub).length_le
  rw [List.length_map, List.length_range] at this
  omega

/-- The `while` loop of `build_records` always delivers an identifier not
yet in the assigned set. -/
theorem resolveUnique_fresh (spfx : String) (seen : List String) (sid : String)
    (index : Nat) :
    (resolveUnique spfx seen sid index (seen.length + 2)).1 ∉ seen := by
  apply resolve_step
  by_cases hs : sid ∈ seen
  · obtain ⟨k, hk, hnot⟩ := exists_fresh_candidate spfx seen index
    exact Or.inr ⟨k, by omega, hnot⟩
  · exact Or.inl hs

theorem buildRecordsAux_nodup (metadata : List (String × MetadataRecord))
    (spfx ppfx : String) :
    ∀ (pdfs : List PDFDoc) (seen : List String) (index : Nat),
      ((buildRecordsAux metadata spfx ppfx pdfs seen index).map
          (fun r => r.student_id)).Nodup
      ∧ ∀ s ∈ (buildRecordsAux metadata spfx ppfx pdfs seen index).map
          (fun r => r.student_id), s ∉ seen := by
  intro pdfs
  induction pdfs with
  | nil =>
      intro seen index
      exact ⟨List.nodup_nil, by intro s hs; exact absurd hs (by simp [buildRecordsAux])⟩
  | cons pdf rest ih =>
      intro seen index
      unfold buildRecordsAux
      dsimp only
      rw [List.map_cons]
      set sid := (resolveUnique spfx seen
        (extract_student_id pdf.name (spfx ++ pyPad2 index)) index
        (seen.length + 2)).1 with hsid
      set rtail := (buildRecordsAux metadata spfx ppfx rest (sid :: seen)
        ((resolveUnique spfx seen
          (extract_student_id pdf.name (spfx ++ pyPad2 index)) index
          (seen.length + 2)).2 + 1)).map (fun r => r.student_id) with hrtail
      obtain ⟨ihnd, ihnotin⟩ := ih (sid :: seen)
        ((resolveUnique spfx seen
          (extract_student_id pdf.name (spfx ++ pyPad2 index)) index
          (seen.length + 2)).2 + 1)
      have hfresh : sid ∉ seen := resolveUnique_fresh spfx seen _ index
      constructor
      · rw [List.nodup_cons]
        refine ⟨?_, ihnd⟩
        intro hmem
        exact (ihnotin sid hmem) (List.mem_cons_self sid seen)
      · intro s hs
        rcases List.mem_cons.mp hs with rfl | hs'
        · exact hfresh
        · intro hseen
          exact (ihnotin s hs') (List.mem_cons_of_mem sid hseen)

/-- C6 (claim theorem): `build_records` emits exactly one record per
input document in input order (same length, i-th filename equals the i-th
document name, no reordering or deduplication), the emitted student ids
are pairwise distinct, and in the duplicated-`S01` scenario the first
document keeps `S01` while the second receives a freshly generated
distinct identifier (`S03`), with no error raised. -/
theorem c6_builder_unique_ids (pdfs : List PDFDoc) (spfx ppfx : String)
    (start_index : Nat) (metadata : List (String × MetadataRecord)) :
    (build_records pdfs spfx ppfx start_index metadata).length = pdfs.length
      ∧ ((build_records pdfs spfx ppfx start_index metadata).map
          (fun r => r.student_id)).Nodup
      ∧ (∀ i (hi : i < pdfs.length)
          (hi' : i < (build_records pdfs spfx ppfx start_index metadata).length),
          ((build_records pdfs spfx ppfx start_index metadata).get ⟨i, hi'⟩).filename
            = (pdfs.get ⟨i, hi⟩).name)
      ∧ (build_records [⟨"S01_thesis.pdf", none⟩, ⟨"S01_copy.pdf", none⟩]
          "S" "P" 1 []).map (fun r => r.student_id) = ["S01", "S03"] := by
  refine ⟨buildRecordsAux_length metadata spfx ppfx pdfs [] start_index,
    (buildRecordsAux_nodup metadata spfx ppfx pdfs [] start_index).1, ?_, by decide⟩
  intro i hi hi'
  exact (buildRecordsAux_fields metadata spfx ppfx pdfs [] start_index i hi hi').1

theorem c6_builder_unique_ids_witness :
    ((build_records [⟨"S01_thesis.pdf", none⟩, ⟨"S01_copy.pdf", none⟩]
        "S" "P" 1 []).get ⟨1, by decide⟩).filename = "S01_copy.pdf" := by
  have h := c6_builder_unique_ids [⟨"S01_thesis.pdf", none⟩, ⟨"S01_copy.pdf", none⟩]
    "S" "P" 1 []
  rw [h.2.2.1 1 (by decide) (by decide)]
  decide

theorem string_eta (s : String) : (⟨s.data⟩ : String) = s := by cases s; rfl

theorem csvRun_fs_nil (f : List Char) (curRow : List String)
    (rows : List (List String)) :
    csvRun .fieldStart [] f curRow rows
      = if curRow = [] then rows else rows ++ [curRow ++ [""]] := by
  rw [csvRun]

theorem csvRun_fs_cons (c : Char) (cs f : List Char) (curRow : List String)
    (rows : List (List String)) :
    csvRun .fieldStart (c :: cs) f curRow rows
      = (if c = '"' then csvRun .quoted cs [] curRow rows
        else if c = ',' then csvRun .fieldStart cs [] (curRow ++ [""]) rows
        else if c = '\r' then
          csvRun .fieldStart (dropLF cs) [] [] (rows ++ [endRowAtStart curRow])
        else if c = '\n' then
          csvRun .fieldStart cs [] [] (rows ++ [endRowAtStart curRow])
        else csvRun .unquoted cs [c] curRow rows) := by
  rw [csvRun]

theorem csvRun_unq_cons (c : Char) (cs f : List Char) (curRow : List String)
    (rows : List (List String)) :
    csvRun .unquoted (c :: cs) f curRow rows
      = (if c = ',' then
          csvRun .fieldStart cs [] (curRow ++ [(⟨f⟩ : String)]) rows
        else if c = '\r' then
          csvRun .fieldStart (dropLF cs) [] [] (rows ++ [curRow ++ [(⟨f⟩ : String)]])
        else if c = '\n' then
          csvRun .fieldStart cs [] [] (rows ++ [curRow ++ [(⟨f⟩ : String)]])
        else csvRun .unquoted cs (f ++ [c]) curRow rows) := by
  rw [csvRun]

theorem csvRun_q_cons (c : Char) (cs f : List Char) (curRow : List String)
    (rows : List (List String)) :
    csvRun .quoted (c :: cs) f curRow rows
      = (if c = '"' then
          (match cs with
            | d :: ds =>
              if d = '"' then csvRun .quoted ds (f ++ ['"']) curRow rows
              else csvRun .unquoted (d :: ds) f curRow rows
            | [] => csvRun .unquoted [] f curRow rows)
        else csvRun .quoted cs (f ++ [c]) curRow rows) := by
  rw [csvRun.eq_def]

theorem csvRun_unq_nil (f : List Char) (curRow : List String)
    (rows : List (List String)) :
    csvRun .unquoted [] f curRow rows = rows ++ [curRow ++ [(⟨f⟩ : String)]] := by
  rw [csvRun.eq_def]

theorem escQuotes_cons (c : Char) (t : List Char) :
    escQuotes (c :: t)
      = if c = '"' then '"' :: '"' :: escQuotes t else c :: escQuotes t := rfl

theorem csvRun_unquoted_chunk (cs : List Char)
    (h : ∀ c ∈ cs, c ≠ ',' ∧ c ≠ '\r' ∧ c ≠ '\n') :
    ∀ (rest f : List Char) (curRow : List String) (rows : List (List String)),
      csvRun .unquoted (cs ++ rest) f curRow rows
        = csvRun .unquoted rest (f ++ cs) curRow rows := by
  induction cs with
  | nil => intro rest f curRow rows; rw [List.nil_append, List.append_nil]
  | cons c t ih =>
      intro rest f curRow rows
      obtain ⟨h1, h2, h3⟩ := h c (List.mem_cons_self c t)
      rw [List.cons_append, csvRun_unq_cons, if_neg h1, if_neg h2, if_neg h3,
        ih (fun d hd => h d (List.mem_cons_of_mem c hd)) rest (f ++ [c]),
        List.append_assoc]
      rfl

theorem csvRun_quoted_chunk (cs : List Char) :
    ∀ (rest f : List Char) (curRow : List String) (rows : List (List String)),
      rest.head? ≠ some '"' →
      csvRun .quoted (escQuotes cs ++ '"' :: rest) f curRow rows
        = csvRun .unquoted rest (f ++ cs) curRow rows := by
  induction cs with
  | nil =>
      intro rest f curRow rows hrest
      show csvRun .quoted ('"' :: rest) f curRow rows
        = csvRun .unquoted rest (f ++ []) curRow rows
      rw [csvRun_q_cons, if_pos rfl, List.append_nil]
      cases rest with
      | nil => rfl
      | cons d ds =>
          have hd : d ≠ '"' := by
            intro h
            exact hrest (by rw [h]; rfl)
          rw [show (match d :: ds with
              | d :: ds =>
                if d = '"' then csvRun .quoted ds (f ++ ['"']) curRow rows
                else csvRun .unquoted (d :: ds) f curRow rows
              | [] => csvRun .unquoted [] f curRow rows)
            = if d = '"' then csvRun .quoted ds (f ++ ['"']) curRow rows
              else csvRun .unquoted (d :: ds) f curRow rows from rfl, if_neg hd]
  | cons c t ih =>
      intro rest f curRow rows hrest
      by_cases hc : c = '"'
      · subst hc
        show csvRun .quoted ('"' :: ('"' :: (escQuotes t ++ '"' :: rest))) f curRow rows
          = csvRun .unquoted rest (f ++ '"' :: t) curRow rows
        rw [csvRun_q_cons, if_pos rfl]
        rw [show (match '"' :: (escQuotes t ++ '"' :: rest) with
            | d :: ds =>
              if d = '"' then csvRun .quoted ds (f ++ ['"']) curRow rows
              else csvRun .unquoted (d :: ds) f curRow rows
            | [] => csvRun .unquoted [] f curRow rows)
          = if ('"' : Char) = '"' then
              csvRun .quoted (escQuotes t ++ '"' :: rest) (f ++ ['"']) curRow rows
            else csvRun .unquoted ('"' :: (escQuotes t ++ '"' :: rest)) f curRow rows
          from rfl, if_pos rfl, ih rest (f ++ ['"']) curRow rows hrest,
          List.append_assoc]
        rfl
      · rw [show escQuotes (c :: t) = c :: escQuotes t from by
            rw [escQuotes_cons, if_neg hc], List.cons_append,
          csvRun_q_cons, if_neg hc, ih rest (f ++ [c]) curRow rows hrest,
          List.append_assoc]
        rfl

theorem not_needsQuote_chars {f : String} (h : needsQuote f = false) :
    ∀ c ∈ f.data, c ≠ ',' ∧ c ≠ '"' ∧ c ≠ '\r' ∧ c ≠ '\n' := by
  intro c hc
  unfold needsQuote at h
  rw [List.any_eq_false] at h
  have := h c hc
  simp only [decide_eq_true_eq, not_or] at this
  exact this

theorem csvRun_field_to_unquoted (f : String) (rest₀ : List Char)
    (curRow : List String) (rows : List (List String))
    (hhead : rest₀.head? = some ',' ∨ rest₀.head? = some '\r')
    (hcond : f ≠ "" ∨ curRow ≠ [] ∨ rest₀.head? = some ',') :
    csvRun .fieldStart (serField f ++ rest₀) [] curRow rows
      = csvRun .unquoted rest₀ f.data curRow rows := by
  by_cases hq : needsQuote f = true
  · unfold serField
    rw [if_pos hq, List.cons_append, List.append_assoc]
    rw [csvRun_fs_cons, if_pos rfl]
    have hr : rest₀.head? ≠ some '"' := by
      rcases hhead with h | h <;> rw [h] <;> intro hh <;> simp at hh
    show csvRun .quoted (escQuotes f.data ++ '"' :: rest₀) [] curRow rows
      = csvRun .unquoted rest₀ f.data curRow rows
    rw [csvRun_quoted_chunk f.data rest₀ [] curRow rows hr]
    rfl
  · have hqf : needsQuote f = false := by revert hq; cases needsQuote f <;> simp
    unfold serField
    rw [if_neg (by rw [hqf]; exact fun hc => nomatch hc)]
    cases hfd : f.data with
    | nil =>
        rw [List.nil_append]
        have hf0 : f = "" := by
          cases f with
          | mk d =>
              simp only at hfd
              rw [hfd]
        cases rest₀ with
        | nil => rcases hhead with h | h <;> simp at h
        | cons r rs =>
            rcases hhead with h | h
            · have hr : r = ',' := by simpa using h
              subst hr
              rw [csvRun_fs_cons, csvRun_unq_cons, if_neg (by decide), if_pos rfl,
                if_pos rfl]
            · have hr : r = '\r' := by simpa using h
              subst hr
              have hcr : curRow ≠ [] := by
                rcases hcond with hf | hcur | hcomma
                · exact absurd hf0 hf
                · exact hcur
                · simp at hcomma
              rw [csvRun_fs_cons, csvRun_unq_cons, if_neg (by decide),
                if_neg (by decide), if_pos rfl, if_neg (by decide), if_pos rfl]
              unfold endRowAtStart
              rw [if_neg hcr]
    | cons c t =>
        have hch : ∀ d ∈ c :: t, d ≠ ',' ∧ d ≠ '"' ∧ d ≠ '\r' ∧ d ≠ '\n' := by
          rw [← hfd]
          exact not_needsQuote_chars hqf
        obtain ⟨h1, h2, h3, h4⟩ := hch c (List.mem_cons_self c t)
        rw [List.cons_append, csvRun_fs_cons, if_neg h2, if_neg h1, if_neg h3,
          if_neg h4]
        rw [csvRun_unquoted_chunk t
          (fun d hd =>
            let hd' := hch d (List.mem_cons_of_mem c hd)
            ⟨hd'.1, hd'.2.2.1, hd'.2.2.2⟩) rest₀ [c] curRow rows]
        rfl

theorem csvRun_row (fs : List String) :
    ∀ (curRow : List String) (rows : List (List String)) (rest : List Char),
      fs ≠ [] →
      (curRow ≠ [] ∨ fs ≠ [""]) →
      csvRun .fieldStart (serFieldsJoin fs ++ '\r' :: '\n' :: rest) [] curRow rows
        = csvRun .fieldStart rest [] [] (rows ++ [curRow ++ fs]) := by
  induction fs with
  | nil =>
      intro curRow rows rest hne _
      exact absurd rfl hne
  | cons f fs ih =>
      intro curRow rows rest _ hcond
      cases fs with
      | nil =>
          have hc : f ≠ "" ∨ curRow ≠ [] ∨
              (('\r' :: '\n' :: rest).head? = some ',') := by
            rcases hcond with hcur | hne1
            · exact Or.inr (Or.inl hcur)
            · refine Or.inl ?_
              intro hf
              rw [hf] at hne1
              exact hne1 rfl
          rw [show serFieldsJoin [f] = serField f from rfl,
            csvRun_field_to_unquoted f ('\r' :: '\n' :: rest) curRow rows
              (Or.inr rfl) hc,
            csvRun_unq_cons, if_neg (by decide), if_pos rfl]
          rw [show dropLF ('\n' :: rest) = rest from rfl, string_eta]
      | cons g gs =>
          have hstep : serFieldsJoin (f :: g :: gs)
              = serField f ++ ',' :: serFieldsJoin (g :: gs) := rfl
          rw [hstep, List.append_assoc, List.cons_append,
            csvRun_field_to_unquoted f
              (',' :: (serFieldsJoin (g :: gs) ++ '\r' :: '\n' :: rest))
              curRow rows (Or.inl rfl) (Or.inr (Or.inr rfl)),
            csvRun_unq_cons, if_pos rfl, string_eta,
            ih (curRow ++ [f]) rows rest (by simp)
              (Or.inl (by simp)),
            List.append_assoc]
          rfl

theorem csvRun_rows (rows' : List (List String))
    (h : ∀ r ∈ rows', r ≠ [] ∧ r ≠ [""]) :
    ∀ (acc : List (List String)),
      csvRun .fieldStart (serRows rows') [] [] acc = acc ++ rows' := by
  induction rows' with
  | nil =>
      intro acc
      rw [show serRows [] = [] from rfl, csvRun_fs_nil, if_pos rfl, List.append_nil]
  | cons r rs ih =>
      intro acc
      obtain ⟨hr1, hr2⟩ := h r (List.mem_cons_self r rs)
      have hstep : serRows (r :: rs) = serFieldsJoin r ++ '\r' :: '\n' :: serRows rs := by
        show (List.map serRow (r :: rs)).flatten = _
        rw [List.map_cons, List.flatten_cons]
        show serFieldsJoin r ++ ['\r', '\n'] ++ serRows rs = _
        rw [List.append_assoc]
        rfl
      rw [hstep, csvRun_row r [] acc (serRows rs) hr1 (Or.inr hr2)]
      simp only [List.nil_append]
      rw [ih (fun x hx => h x (List.mem_cons_of_mem r hx)) (acc ++ [r]),
        List.append_assoc]
      rfl

/-- C9 (claim theorem): writing the roster with `write_mapping_csv` and
re-reading the produced text with the CSV reader reproduces exactly the
header row followed by one row per record in input order — even when
field values contain delimiters, quotes or line breaks that the CSV layer
must escape — and hence reproduces the `(student_id, proposal_id,
filename)` triples in order. -/
theorem c9_mapping_roundtrip (records : List ProposalRecord) :
    readCSV (write_mapping_csv records) = mappingHeader :: records.map mappingRow
      ∧ ((readCSV (write_mapping_csv records)).drop 1).map
          (fun row => (row.getD 1 "", row.getD 0 "", row.getD 4 ""))
        = records.map (fun r => (r.student_id, r.proposal_id, r.filename)) := by
  have hrows : ∀ r ∈ mappingHeader :: records.map mappingRow, r ≠ [] ∧ r ≠ [""] := by
    intro r hr
    rcases List.mem_cons.mp hr with rfl | hr'
    · exact ⟨by simp [mappingHeader], by simp [mappingHeader]⟩
    · rw [List.mem_map] at hr'
      obtain ⟨rec, _, rfl⟩ := hr'
      constructor
      · simp [mappingRow]
      · intro hcon
        have := congrArg List.length hcon
        simp [mappingRow] at this
  have hmain : readCSV (write_mapping_csv records)
      = mappingHeader :: records.map mappingRow := by
    show csvRun .fieldStart (serRows (mappingHeader :: records.map mappingRow)) [] [] []
      = mappingHeader :: records.map mappingRow
    rw [csvRun_rows _ hrows []]
    rfl
  refine ⟨hmain, ?_⟩
  rw [hmain]
  rw [show (mappingHeader :: records.map mappingRow).drop 1
      = records.map mappingRow from rfl, List.map_map]
  rfl

end Review
